import Mathlib

/-!
Verification development for the tlsnotary/proof_viz repository.

The Rust sources are shallowly embedded as executable Lean definitions:
byte buffers are `List Nat` (each entry a byte value), Rust `String`s are
either their UTF-8 bytes (`List Nat`) or, where the source works
character-wise, `List Char`; fallible code (Rust panics: `unwrap`,
slice-index panics, arithmetic-overflow panics) returns `Option`, with
`none` modelling a panic/abort.  Calls into external crates (serde_json,
tlsn_core, spansy) are taken as oracle parameters, except where a small
documented contract is modelled explicitly (noted at each definition).
-/

namespace ProofViz

/-! ### UTF-8 model (Rust `std`: `String::from_utf8`, `String::from_utf8_lossy`)

`utf8Valid` follows the validation performed by `str::from_utf8`
(RFC 3629 well-formed UTF-8).  `utf8Lossy` follows
`String::from_utf8_lossy`: maximal subparts of ill-formed sequences are
replaced by U+FFFD (bytes `EF BF BD`); on valid input the bytes are
returned unchanged. -/

def isCont (b : Nat) : Bool := 0x80 ≤ b && b ≤ 0xBF

/-- Allowed first continuation byte after a three-byte lead `b`. -/
def contAfter3 (b b1 : Nat) : Bool :=
  if b == 0xE0 then 0xA0 ≤ b1 && b1 ≤ 0xBF
  else if b == 0xED then 0x80 ≤ b1 && b1 ≤ 0x9F
  else isCont b1

/-- Allowed first continuation byte after a four-byte lead `b`. -/
def contAfter4 (b b1 : Nat) : Bool :=
  if b == 0xF0 then 0x90 ≤ b1 && b1 ≤ 0xBF
  else if b == 0xF4 then 0x80 ≤ b1 && b1 ≤ 0x8F
  else isCont b1

def utf8Valid : List Nat → Bool
  | [] => true
  | b :: rest =>
    if b < 0x80 then utf8Valid rest
    else if b < 0xC2 then false
    else if b < 0xE0 then
      match rest with
      | b1 :: r => isCont b1 && utf8Valid r
      | [] => false
    else if b < 0xF0 then
      match rest with
      | b1 :: b2 :: r => contAfter3 b b1 && isCont b2 && utf8Valid r
      | _ => false
    else if b < 0xF5 then
      match rest with
      | b1 :: b2 :: b3 :: r => contAfter4 b b1 && isCont b2 && isCont b3 && utf8Valid r
      | _ => false
    else false

/-- UTF-8 bytes of U+FFFD, the replacement character. -/
def replacementBytes : List Nat := [0xEF, 0xBF, 0xBD]

def utf8Lossy : List Nat → List Nat
  | [] => []
  | b :: rest =>
    if b < 0x80 then b :: utf8Lossy rest
    else if b < 0xC2 then replacementBytes ++ utf8Lossy rest
    else if b < 0xE0 then
      match rest with
      | b1 :: r =>
        if isCont b1 then b :: b1 :: utf8Lossy r
        else replacementBytes ++ utf8Lossy (b1 :: r)
      | [] => replacementBytes
    else if b < 0xF0 then
      match rest with
      | b1 :: r =>
        if contAfter3 b b1 then
          match r with
          | b2 :: r2 =>
            if isCont b2 then b :: b1 :: b2 :: utf8Lossy r2
            else replacementBytes ++ utf8Lossy (b2 :: r2)
          | [] => replacementBytes
        else replacementBytes ++ utf8Lossy (b1 :: r)
      | [] => replacementBytes
    else if b < 0xF5 then
      match rest with
      | b1 :: r =>
        if contAfter4 b b1 then
          match r with
          | b2 :: r2 =>
            if isCont b2 then
              match r2 with
              | b3 :: r3 =>
                if isCont b3 then b :: b1 :: b2 :: b3 :: utf8Lossy r3
                else replacementBytes ++ utf8Lossy (b3 :: r3)
              | [] => replacementBytes
            else replacementBytes ++ utf8Lossy (b2 :: r2)
          | [] => replacementBytes
        else replacementBytes ++ utf8Lossy (b1 :: r)
      | [] => replacementBytes
    else replacementBytes ++ utf8Lossy rest

/-! ### Byte ranges

`Rg` embeds Rust's `Range<usize>` (half-open `[start, stop)`); the field
`end` of the Rust type is called `stop` here because `end` is a Lean
keyword. -/

structure Rg where
  start : Nat
  stop : Nat
  deriving DecidableEq, Repr

/-! ### Redaction segmenter
(src/components/redacted_bytes_component.rs)

Output `Html` nodes are modelled by `Node`: `Node.text` is a plain text
node carrying its UTF-8 bytes (`Html::from(...)` applied to a string);
`Node.redactedSpan` is the red `<span>` wrapping the redaction-marker
text, carried as the list of characters. -/

inductive Node where
  | text (s : List Nat)
  | redactedSpan (s : List Char)
  deriving DecidableEq, Repr

/-- Lines 29-35: `get_redacted_string`.  The source condition is
`true || size < 10`, so the first branch is always taken; both branches
are kept verbatim. -/
def get_redacted_string (redacted_char : Char) (size : Nat) : List Char :=
  if true || decide (size < 10) then List.replicate size redacted_char
  else List.replicate 3 redacted_char ++ ['.', '.', '.'] ++ List.replicate 3 redacted_char

/-- One step of the fold at lines 47-56: push the non-redacted range
`[last_end, range.start)` and remember `range.end`. -/
def segStep (p : List Rg × Nat) (range : Rg) : List Rg × Nat :=
  (p.1 ++ [⟨p.2, range.start⟩], range.stop)

/-- Lines 47-56: `(non_redacted_ranges, last_redacted_position)`. -/
def nonRedactedFold (redacted_ranges : List Rg) : List Rg × Nat :=
  redacted_ranges.foldl segStep ([], 0)

/-- Lines 59-72: `all_ranges` — interweave non-redacted and redacted
ranges and append the final remaining non-redacted part.  Each element is
`(start, end, is_redacted)`. -/
def all_ranges (len : Nat) (redacted_ranges : List Rg) : List (Nat × Nat × Bool) :=
  ((nonRedactedFold redacted_ranges).1.zip redacted_ranges).flatMap
    (fun q => [(q.1.start, q.1.stop, false), (q.2.start, q.2.stop, true)])
  ++ [((nonRedactedFold redacted_ranges).2, len, false)]

/-- Rust slice `&bytes[s..e]`: panics (here `none`) unless
`s ≤ e ∧ e ≤ bytes.len()`. -/
def sliceOpt (bytes : List Nat) (s e : Nat) : Option (List Nat) :=
  if s ≤ e ∧ e ≤ bytes.length then some ((bytes.drop s).take (e - s)) else none

/-- Lines 74-85, body of the `map` over `all_ranges`.  The redacted
branch computes `end - start` on `usize`: when `end < start` this is an
overflow panic in debug builds, and in release builds the wrapped value
makes `str::repeat` abort on capacity overflow, so both builds are
modelled by `none`.  The non-redacted branch slices the buffer and
converts it lossily. -/
def segNode (bytes : List Nat) (redacted_char : Char) (t : Nat × Nat × Bool) : Option Node :=
  if t.2.2 then
    if t.1 ≤ t.2.1 then
      some (Node.redactedSpan (get_redacted_string redacted_char (t.2.1 - t.1)))
    else none
  else
    (sliceOpt bytes t.1 t.2.1).map (fun sl => Node.text (utf8Lossy sl))

/-- The `map`/`collect` at lines 74-85; the first panic aborts the whole
computation. -/
def renderSegs (bytes : List Nat) (redacted_char : Char) : List (Nat × Nat × Bool) → Option (List Node)
  | [] => some []
  | t :: rest =>
    match segNode bytes redacted_char t, renderSegs bytes redacted_char rest with
    | some n, some ns => some (n :: ns)
    | _, _ => none

/-- Lines 37-92: `redactions_in_red`.  When `redacted_ranges` is empty
(lines 42-44) the source returns
`Html::from(String::from_utf8(bytes.to_vec()).unwrap())`: a single text
node when the bytes are valid UTF-8, and a panic (`none`) otherwise. -/
def redactions_in_red (bytes : List Nat) (redacted_ranges : List Rg) (redacted_char : Char) :
    Option (List Node) :=
  if redacted_ranges.isEmpty then
    if utf8Valid bytes then some [Node.text bytes] else none
  else
    renderSegs bytes redacted_char (all_ranges bytes.length redacted_ranges)

/-- Validity of a range set (the §3 invariant of the specification):
starting from lower bound `lo`, ranges are sorted, pairwise disjoint,
each nonempty (`start < stop`) and in bounds (`stop ≤ len`). -/
def rangesValidFrom (lo len : Nat) : List Rg → Bool
  | [] => true
  | r :: rest =>
    decide (lo ≤ r.start) && decide (r.start < r.stop) && decide (r.stop ≤ len) &&
      rangesValidFrom r.stop len rest

def rangesValid (ranges : List Rg) (len : Nat) : Bool :=
  rangesValidFrom 0 len ranges

/-! Proof devices for the segmenter: a structurally recursive restatement
of `all_ranges`, proved equal to it below. -/

def nrList (e0 : Nat) : List Rg → List Rg
  | [] => []
  | r :: rest => ⟨e0, r.start⟩ :: nrList r.stop rest

def lastEnd (e0 : Nat) : List Rg → Nat
  | [] => e0
  | r :: rest => lastEnd r.stop rest

def segsRec (lo len : Nat) : List Rg → List (Nat × Nat × Bool)
  | [] => [(lo, len, false)]
  | r :: rest => (lo, r.start, false) :: (r.start, r.stop, true) :: segsRec r.stop len rest

/-- The redacted spans among a node list, in order. -/
def redactedOf (ns : List Node) : List (List Char) :=
  ns.filterMap (fun n =>
    match n with
    | Node.redactedSpan s => some s
    | Node.text _ => none)

/-! ### Sentinel-based renderer
(src/components/redactedBytesComponent.rs)

This older component receives the transcript as a `String` and finds
redacted spans by scanning for the sentinel character; it is embedded
character-wise (`List Char`). -/

/-- Line 5: the redaction marker character. -/
def REDACTED_CHAR : Char := '█'

/-- One step of the fold at lines 31-45.  `previous_c` is the last
character of the current part, defaulting to `REDACTED_CHAR` when the
part is empty. -/
def splitStep (p : List (List Char) × List Char) (c : Char) : List (List Char) × List Char :=
  let previous_c := p.2.getLast?.getD REDACTED_CHAR
  if (c == REDACTED_CHAR) == (previous_c == REDACTED_CHAR) then
    (p.1, p.2 ++ [c])
  else if p.2.isEmpty then (p.1, [c])
  else (p.1 ++ [p.2], [c])

/-- Lines 30-51: `split_text` — split into alternating runs of sentinel
and non-sentinel characters; the trailing part is pushed only when
nonempty. -/
def split_text (text : List Char) : List (List Char) :=
  let p := text.foldl splitStep ([], [])
  if p.2.isEmpty then p.1 else p.1 ++ [p.2]

/-- Output nodes of the sentinel renderer: the red `<span>` for parts
starting with the sentinel, plain text otherwise. -/
inductive TextNode where
  | redSpan (s : List Char)
  | plain (s : List Char)
  deriving DecidableEq, Repr

/-- Lines 53-68: the sentinel `redactions_in_red` — colour the parts that
start with `REDACTED_CHAR` (`starts_with` on a `char` pattern checks the
first character). -/
def redactions_in_red_view (text : List Char) : List TextNode :=
  (split_text text).map (fun part =>
    if part.head? == some REDACTED_CHAR then TextNode.redSpan part else TextNode.plain part)

/-- Line 74: `bytes.replace('\0', REDACTED_CHAR.to_string().as_str())` —
the replacement string is the single marker character, so the `String`
replace is a character-wise map. -/
def replaceNul (bytes : List Char) : List Char :=
  bytes.map (fun c => if c == Char.ofNat 0 then REDACTED_CHAR else c)

/-- Lines 70-84: the component's rendering of its `bytes` string —
replace NUL by the marker, then split and colour. -/
def componentRender (bytes : List Char) : List TextNode :=
  redactions_in_red_view (replaceNul bytes)

/-! ### Transcripts and the external tlsn_core contract

`Transcript` models tlsn_core's `RedactedTranscript`: the disclosed data
plus the set of redacted (withheld) ranges.  `set_redacted` is modelled
from the external library's documented behaviour (also quoted in the
source comments at main.rs lines 259-262 and view_file.rs lines 101-103):
it overwrites every byte inside a redacted range with the given byte. -/

structure Transcript where
  data : List Nat
  redacted : List Rg
  deriving DecidableEq, Repr

def inRanges (ranges : List Rg) (i : Nat) : Bool :=
  ranges.any (fun r => decide (r.start ≤ i) && decide (i < r.stop))

def setRedactedFrom (b : Nat) (red : List Rg) : Nat → List Nat → List Nat
  | _, [] => []
  | i, x :: xs => (if inRanges red i then b else x) :: setRedactedFrom b red (i + 1) xs

def set_redacted (b : Nat) (t : Transcript) : Transcript :=
  ⟨setRedactedFrom b t.redacted 0 t.data, t.redacted⟩

/-- main.rs lines 257-287, one direction: after substring verification
the transcript is zeroed at withheld positions (`set_redacted(b'\0')`),
decoded to a `String` (`String::from_utf8(...).unwrap()`, an oracle
`decode` here, `none` modelling the panic on invalid UTF-8) and handed to
the sentinel component. -/
def mainRenderDirection (decode : List Nat → Option (List Char)) (t : Transcript) :
    Option (List TextNode) :=
  (decode (set_redacted 0 t).data).map componentRender

/-! ### Verification pipeline
(src/components/view_file.rs)

The external collaborators are oracle parameters: `serde_json` parsing of
the artifact, tlsn_core session verification
(`verify_with_default_cert_verifier`) and substring verification
(`substrings.verify(&header)`).  Error strings are carried as their
bytes. -/

structure TlsProofObj (S SS : Type) where
  session : S
  substrings : SS

/-- The possible `Html` outcomes of `parse_tls_proof`, keeping the
meaningful payloads: the parse-failure text, the invalid-proof alert
text, or the rendered view (server name, time, and the two transcripts
passed on to the render components). -/
inductive PView where
  | parsingFailed (msg : List Nat)
  | invalidProof (msg : List Nat)
  | rendered (serverName : List Nat) (time : Nat) (sent recv : Transcript)
  deriving DecidableEq, Repr

/-- view_file.rs lines 33-137: `parse_tls_proof`.  Parse the artifact;
on session-verification failure return the invalid-proof alert (lines
50-65); on substring-verification failure likewise (lines 81-96);
otherwise apply `set_redacted(b'X')` (byte 88, lines 101-103) and render
both directions (lines 110-134). -/
def parse_tls_proof {S SS : Type}
    (tls_proof : Except (List Nat) (TlsProofObj S SS))
    (verify_proof : S → Except (List Nat) Unit)
    (substrings_verify : SS → Except (List Nat) (Transcript × Transcript))
    (server_name : S → List Nat) (header_time : S → Nat) : PView :=
  match tls_proof with
  | .error e => PView.parsingFailed e
  | .ok tp =>
    match verify_proof tp.session with
    | .error e => PView.invalidProof e
    | .ok _ =>
      match substrings_verify tp.substrings with
      | .error e => PView.invalidProof e
      | .ok (sent, recv) =>
        PView.rendered (server_name tp.session) (header_time tp.session)
          (set_redacted 88 sent) (set_redacted 88 recv)

/-- ASCII string literals as byte lists. -/
def asciiBytes (s : String) : List Nat := s.toList.map Char.toNat

def appJsonBytes : List Nat := asciiBytes "application/json"

/-- `needle.is_prefix_of hay` on byte strings. -/
def startsWithBytes : List Nat → List Nat → Bool
  | [], _ => true
  | _ :: _, [] => false
  | a :: as_, b :: bs => a == b && startsWithBytes as_ bs

/-- Rust `str::contains` with a string pattern: substring search (on
valid UTF-8 a byte-level occurrence always falls on character
boundaries, so the byte-level search is exact). -/
def containsSub (needle : List Nat) : List Nat → Bool
  | [] => needle.isEmpty
  | b :: t => startsWithBytes needle (b :: t) || containsSub needle t

/-- view_file.rs lines 139-153 (and main.rs lines 298-328): the
`ViewFile` body.  `str::from_utf8(&props.data).unwrap()` panics
(`none`) on non-UTF-8 file bytes; otherwise `parse_tls_proof` runs only
when the declared file type contains `application/json` (inner `none` =
no proof view rendered). -/
def view_file {S SS : Type}
    (parse : List Nat → Except (List Nat) (TlsProofObj S SS))
    (verify_proof : S → Except (List Nat) Unit)
    (substrings_verify : SS → Except (List Nat) (Transcript × Transcript))
    (server_name : S → List Nat) (header_time : S → Nat)
    (file_type data : List Nat) : Option (Option PView) :=
  if utf8Valid data then
    some (if containsSub appJsonBytes file_type then
      some (parse_tls_proof (parse data) verify_proof substrings_verify server_name header_time)
    else none)
  else none

/-! ### Content classifier
(src/components/content_iframe.rs)

`spansy::http::parse_response` is an oracle returning either a parsed
response (headers with raw name/value bytes, optional body bytes) or an
error whose display text is carried as bytes.  `serde_json` parsing and
pretty-printing of the body are oracles `jsonParse`/`pretty`
(`serde_json::to_string_pretty` never fails on a parsed `Value`). -/

structure HttpHeader where
  name : List Nat
  value : List Nat
  deriving DecidableEq, Repr

structure HttpResponse where
  headers : List HttpHeader
  body : Option (List Nat)
  deriving DecidableEq, Repr

inductive ContentType where
  | html
  | json
  | other
  deriving DecidableEq, Repr

/-- `to_lowercase` restricted to ASCII (header names produced by the
HTTP parser are ASCII token characters). -/
def asciiLower (bs : List Nat) : List Nat :=
  bs.map (fun b => if 65 ≤ b ∧ b ≤ 90 then b + 32 else b)

def ctName : List Nat := asciiBytes "content-type"

def textHtmlBytes : List Nat := asciiBytes "text/html"

/-- content_iframe.rs lines 13-20: `render_json` — pretty-print the body
when it parses as JSON, otherwise return it unchanged. -/
def render_json {J : Type} (jsonParse : List Nat → Option J) (pretty : J → List Nat)
    (content : List Nat) : List Nat :=
  match jsonParse content with
  | some j => pretty j
  | none => content

/-- content_iframe.rs lines 28-56: `get_content_type`.  On a parsed
response, find the first header whose lowercased name is
`content-type`; classify by whether its lossily-decoded value contains
`text/html` or `application/json`; the body is its lossy decoding (empty
when absent).  On parse failure the source returns
`(ContentType::Other, e.to_string())` — the error text, not the input
buffer. -/
def get_content_type (parse : List Nat → Except (List Nat) HttpResponse)
    (bytes : List Nat) : ContentType × List Nat :=
  match parse bytes with
  | .ok x =>
    let content_type :=
      match x.headers.find? (fun h => asciiLower h.name == ctName) with
      | some header =>
        let type_string := utf8Lossy header.value
        if containsSub textHtmlBytes type_string then ContentType.html
        else if containsSub appJsonBytes type_string then ContentType.json
        else ContentType.other
      | none => ContentType.other
    let body :=
      match x.body with
      | some b => utf8Lossy b
      | none => []
    (content_type, body)
  | .error e => (ContentType.other, e)

inductive ClassifiedContent where
  | html (s : List Nat)
  | structured (s : List Nat)
  | rawContent (s : List Nat)
  deriving DecidableEq, Repr

/-- The classification as the `ContentIFrame` component consumes it
(content_iframe.rs lines 58-86): the HTML branch shows the body, the
JSON branch shows `render_json(body)`, anything else shows the raw
classification. -/
def codeClassified {J : Type} (parse : List Nat → Except (List Nat) HttpResponse)
    (jsonParse : List Nat → Option J) (pretty : J → List Nat)
    (bytes : List Nat) : ClassifiedContent :=
  match get_content_type parse bytes with
  | (ContentType.html, body) => ClassifiedContent.html body
  | (ContentType.json, body) => ClassifiedContent.structured (render_json jsonParse pretty body)
  | (ContentType.other, body) => ClassifiedContent.rawContent body

/-- The classifier as the specification describes it for buffers that
parse as an HTTP response (§4.5): match the `Content-Type` header name
case-insensitively; a value containing `text/html` gives `Html(body)`; a
value containing `application/json` gives `Structured` — pretty-printed
when the body parses as JSON, the body unchanged otherwise; anything
else is the body's raw classification.  Stated from the specification's
words, to be compared with the source's `get_content_type` and
`render_json`. -/
def classify_claim {J : Type} (resp : HttpResponse)
    (jsonParse : List Nat → Option J) (pretty : J → List Nat) : ClassifiedContent :=
  let body :=
    match resp.body with
    | some b => utf8Lossy b
    | none => []
  match resp.headers.find? (fun h => asciiLower h.name == ctName) with
  | none => ClassifiedContent.rawContent body
  | some header =>
    let v := utf8Lossy header.value
    if containsSub textHtmlBytes v then ClassifiedContent.html body
    else if containsSub appJsonBytes v then
      match jsonParse body with
      | some j => ClassifiedContent.structured (pretty j)
      | none => ClassifiedContent.structured body
    else ClassifiedContent.rawContent body

/-! ### Proof devices for the sentinel splitter -/

/-- A run is uniform when it is entirely the sentinel or contains no
sentinel. -/
def uniformRun (p : List Char) : Bool :=
  p.all (· == REDACTED_CHAR) || p.all (fun c => !(c == REDACTED_CHAR))

/-- The class of a run: `true` for sentinel runs (for nonempty uniform
runs this is whether the run consists of the sentinel). -/
def runClass (p : List Char) : Bool :=
  p.all (· == REDACTED_CHAR)

/-- Invariant of the `split_text` fold state. -/
def splitInv (acc : List (List Char)) (cur : List Char) : Prop :=
  (∀ p ∈ acc, p ≠ [] ∧ uniformRun p = true) ∧
  uniformRun cur = true ∧
  (cur = [] → acc = []) ∧
  List.Chain' (fun p q => runClass p ≠ runClass q) (acc ++ [cur])

/-! ## Lemmas: the range-based segmenter -/

theorem foldl_segStep (ranges : List Rg) :
    ∀ (acc : List Rg) (e0 : Nat),
      List.foldl segStep (acc, e0) ranges = (acc ++ nrList e0 ranges, lastEnd e0 ranges) := by
  induction ranges with
  | nil => intro acc e0; simp [nrList, lastEnd]
  | cons r rest ih =>
    intro acc e0
    simp only [List.foldl_cons, segStep, nrList, lastEnd]
    rw [ih]
    simp

theorem nonRedactedFold_eq (ranges : List Rg) :
    nonRedactedFold ranges = (nrList 0 ranges, lastEnd 0 ranges) := by
  simpa [nonRedactedFold] using foldl_segStep ranges [] 0

theorem interleave_eq (len : Nat) (ranges : List Rg) :
    ∀ e0 : Nat,
      ((nrList e0 ranges).zip ranges).flatMap
          (fun q => [(q.1.start, q.1.stop, false), (q.2.start, q.2.stop, true)])
        ++ [(lastEnd e0 ranges, len, false)]
      = segsRec e0 len ranges := by
  induction ranges with
  | nil => intro e0; simp [nrList, lastEnd, segsRec]
  | cons r rest ih =>
    intro e0
    simp only [nrList, lastEnd, List.zip_cons_cons, List.flatMap_cons, segsRec,
      List.cons_append, List.append_assoc]
    rw [ih r.stop]
    simp

theorem all_ranges_eq (len : Nat) (ranges : List Rg) :
    all_ranges len ranges = segsRec 0 len ranges := by
  rw [all_ranges, nonRedactedFold_eq]
  exact interleave_eq len ranges 0

theorem segsRec_ne_nil (lo len : Nat) (ranges : List Rg) : segsRec lo len ranges ≠ [] := by
  cases ranges <;> simp [segsRec]

theorem segsRec_head (lo len : Nat) (ranges : List Rg) :
    (segsRec lo len ranges).head?.map (fun t => t.1) = some lo := by
  cases ranges <;> simp [segsRec]

theorem segsRec_last (len : Nat) (ranges : List Rg) :
    ∀ lo, (segsRec lo len ranges).getLast?.map (fun t => t.2.1) = some len := by
  induction ranges with
  | nil => intro lo; simp [segsRec]
  | cons r rest ih =>
    intro lo
    simp only [segsRec]
    rcases h : segsRec r.stop len rest with _ | ⟨a, tl⟩
    · exact absurd h (segsRec_ne_nil _ _ _)
    · have hih := ih r.stop
      rw [h] at hih
      rw [List.getLast?_cons_cons, List.getLast?_cons_cons]
      exact hih

theorem segsRec_chain (len : Nat) (ranges : List Rg) :
    ∀ lo, List.Chain' (fun a b : Nat × Nat × Bool => a.2.1 = b.1) (segsRec lo len ranges) := by
  induction ranges with
  | nil => intro lo; simp [segsRec]
  | cons r rest ih =>
    intro lo
    simp only [segsRec]
    refine (List.chain'_cons).mpr ⟨rfl, ?_⟩
    refine (List.chain'_cons').mpr ⟨?_, ih r.stop⟩
    intro y hy
    have hh := segsRec_head r.stop len rest
    rcases hhead : (segsRec r.stop len rest).head? with _ | t
    · simp [hhead] at hy
    · rw [hhead] at hh hy
      have hyt : t = y := by simpa using hy
      have ht1 : t.1 = r.stop := by simpa using hh
      rw [← hyt]
      show r.stop = t.1
      exact ht1.symm

theorem segsRec_mono (len : Nat) (ranges : List Rg) :
    ∀ lo, rangesValidFrom lo len ranges = true → lo ≤ len →
      ∀ t ∈ segsRec lo len ranges, t.1 ≤ t.2.1 := by
  induction ranges with
  | nil =>
    intro lo _ hlo t ht
    simp [segsRec] at ht
    simp [ht, hlo]
  | cons r rest ih =>
    intro lo hv hlo t ht
    simp [rangesValidFrom] at hv
    obtain ⟨⟨⟨h1, h2⟩, h3⟩, h4⟩ := hv
    simp only [segsRec, List.mem_cons] at ht
    rcases ht with rfl | rfl | ht
    · exact h1
    · exact Nat.le_of_lt h2
    · exact ih r.stop h4 h3 t ht

theorem segsRec_sum (len : Nat) (ranges : List Rg) :
    ∀ lo, rangesValidFrom lo len ranges = true → lo ≤ len →
      ((segsRec lo len ranges).map (fun t => t.2.1 - t.1)).sum = len - lo := by
  induction ranges with
  | nil => intro lo _ _; simp [segsRec]
  | cons r rest ih =>
    intro lo hv hlo
    simp [rangesValidFrom] at hv
    obtain ⟨⟨⟨h1, h2⟩, h3⟩, h4⟩ := hv
    simp only [segsRec, List.map_cons, List.sum_cons]
    rw [ih r.stop h4 h3]
    omega

theorem get_redacted_string_eq (c : Char) (n : Nat) :
    get_redacted_string c n = List.replicate n c := by
  simp [get_redacted_string]

theorem sliceOpt_pos (bytes : List Nat) (s e : Nat) (h1 : s ≤ e) (h2 : e ≤ bytes.length) :
    sliceOpt bytes s e = some ((bytes.drop s).take (e - s)) := by
  simp [sliceOpt, h1, h2]

theorem renderSegs_segsRec (bytes : List Nat) (c : Char) (ranges : List Rg) :
    ∀ lo, rangesValidFrom lo bytes.length ranges = true → lo ≤ bytes.length →
      ∃ ns, renderSegs bytes c (segsRec lo bytes.length ranges) = some ns ∧
        redactedOf ns = ranges.map (fun r => List.replicate (r.stop - r.start) c) := by
  induction ranges with
  | nil =>
    intro lo _ hlo
    refine ⟨[Node.text (utf8Lossy ((bytes.drop lo).take (bytes.length - lo)))], ?_, ?_⟩
    · have hs0 : segNode bytes c (lo, bytes.length, false)
          = some (Node.text (utf8Lossy ((bytes.drop lo).take (bytes.length - lo)))) := by
        simp [segNode, sliceOpt_pos bytes lo bytes.length hlo (Nat.le_refl bytes.length)]
      simp only [segsRec, renderSegs, hs0]
    · simp [redactedOf]
  | cons r rest ih =>
    intro lo hv hlo
    simp [rangesValidFrom] at hv
    obtain ⟨⟨⟨h1, h2⟩, h3⟩, h4⟩ := hv
    obtain ⟨ns, hns, hred⟩ := ih r.stop h4 h3
    refine ⟨Node.text (utf8Lossy ((bytes.drop lo).take (r.start - lo))) ::
            Node.redactedSpan (List.replicate (r.stop - r.start) c) :: ns, ?_, ?_⟩
    · have hsb : r.start ≤ bytes.length := by omega
      have hs1 : segNode bytes c (lo, r.start, false)
          = some (Node.text (utf8Lossy ((bytes.drop lo).take (r.start - lo)))) := by
        simp [segNode, sliceOpt_pos bytes lo r.start h1 hsb]
      have hs2 : segNode bytes c (r.start, r.stop, true)
          = some (Node.redactedSpan (List.replicate (r.stop - r.start) c)) := by
        simp [segNode, get_redacted_string_eq, Nat.le_of_lt h2]
      simp only [segsRec, renderSegs, hs1, hs2, hns]
    · simp [redactedOf] at hred ⊢
      exact hred

/-! ## Lemmas: the sentinel splitter -/

theorem uniform_mem (p : List Char) (hu : uniformRun p = true) :
    ∀ x ∈ p, (x == REDACTED_CHAR) = runClass p := by
  intro x hx
  unfold uniformRun at hu
  unfold runClass
  rcases Bool.or_eq_true_iff.mp hu with h | h
  · rw [h]
    exact List.all_eq_true.mp h x hx
  · have hx1 : (!(x == REDACTED_CHAR)) = true := List.all_eq_true.mp h x hx
    have hx2 : (x == REDACTED_CHAR) = false := by
      cases hxb : (x == REDACTED_CHAR) <;> simp_all
    rw [hx2]
    cases hall : p.all (fun c => c == REDACTED_CHAR)
    · rfl
    · have := List.all_eq_true.mp hall x hx
      simp_all

theorem prev_class (cur : List Char) (hne : cur ≠ []) (hu : uniformRun cur = true) :
    ((cur.getLast?.getD REDACTED_CHAR) == REDACTED_CHAR) = runClass cur := by
  rw [List.getLast?_eq_getLast_of_ne_nil hne]
  simp only [Option.getD_some]
  exact uniform_mem cur hu _ (List.getLast_mem hne)

theorem runClass_append_singleton (p : List Char) (c : Char) :
    runClass (p ++ [c]) = (runClass p && (c == REDACTED_CHAR)) := by
  simp [runClass, List.all_append]

theorem uniformRun_append_singleton (p : List Char) (c : Char)
    (hu : uniformRun p = true) (hc : (c == REDACTED_CHAR) = runClass p) :
    uniformRun (p ++ [c]) = true := by
  rcases p with _ | ⟨a, as⟩
  · unfold uniformRun
    cases hcb : (c == REDACTED_CHAR) <;> simp [hcb]
  · unfold runClass at hc
    unfold uniformRun at hu ⊢
    rcases Bool.or_eq_true_iff.mp hu with h | h
    · apply Bool.or_eq_true_iff.mpr
      left
      rw [List.all_append, h]
      simp only [Bool.true_and, List.all_cons, List.all_nil, Bool.and_true]
      rw [hc, h]
    · apply Bool.or_eq_true_iff.mpr
      right
      rw [List.all_append, h]
      simp only [Bool.true_and, List.all_cons, List.all_nil, Bool.and_true]
      have hrc : (a :: as).all (fun x => x == REDACTED_CHAR) = false := by
        cases hall : (a :: as).all (fun x => x == REDACTED_CHAR)
        · rfl
        · have h1 := List.all_eq_true.mp hall a (by simp)
          have h2 := List.all_eq_true.mp h a (by simp)
          simp_all
      rw [hc, hrc]
      rfl

theorem chain_last_congr (acc : List (List Char)) (x y : List Char)
    (hxy : runClass x = runClass y)
    (h : List.Chain' (fun p q => runClass p ≠ runClass q) (acc ++ [x])) :
    List.Chain' (fun p q => runClass p ≠ runClass q) (acc ++ [y]) := by
  rcases List.chain'_append.mp h with ⟨h1, _, h3⟩
  refine List.chain'_append.mpr ⟨h1, List.chain'_singleton y, ?_⟩
  intro a ha b hb
  simp only [List.head?_cons, Option.mem_def, Option.some.injEq] at hb
  rw [← hb, ← hxy]
  exact h3 a ha x (by simp)

theorem chain_extend (acc : List (List Char)) (x y : List Char)
    (hne : runClass x ≠ runClass y)
    (h : List.Chain' (fun p q => runClass p ≠ runClass q) (acc ++ [x])) :
    List.Chain' (fun p q => runClass p ≠ runClass q) ((acc ++ [x]) ++ [y]) := by
  refine List.chain'_append.mpr ⟨h, List.chain'_singleton y, ?_⟩
  intro a ha b hb
  have hax : x = a := by
    rw [List.getLast?_concat] at ha
    simpa using ha
  have hby : y = b := by simpa using hb
  rw [← hax, ← hby]
  exact hne

theorem splitStep_inv (acc : List (List Char)) (cur : List Char) (c : Char)
    (h : splitInv acc cur) :
    splitInv (splitStep (acc, cur) c).1 (splitStep (acc, cur) c).2 ∧
    (splitStep (acc, cur) c).1.flatten ++ (splitStep (acc, cur) c).2 = acc.flatten ++ cur ++ [c] := by
  obtain ⟨hparts, hu, hemp, hchain⟩ := h
  by_cases hcur : cur = []
  · subst hcur
    have hacc : acc = [] := hemp rfl
    subst hacc
    have hstep : splitStep ([], ([] : List Char)) c = ([], [c]) := by
      cases hc : (c == REDACTED_CHAR) <;> simp [splitStep, hc]
    rw [hstep]
    refine ⟨⟨by simp, ?_, fun _ => rfl, ?_⟩, by simp⟩
    · unfold uniformRun
      cases hc : (c == REDACTED_CHAR) <;> simp [hc]
    · show List.Chain' (fun p q => runClass p ≠ runClass q) ([] ++ [[c]])
      simp
  · have hprev := prev_class cur hcur hu
    by_cases hcond :
        ((c == REDACTED_CHAR) == ((cur.getLast?.getD REDACTED_CHAR) == REDACTED_CHAR)) = true
    · have hstep : splitStep (acc, cur) c = (acc, cur ++ [c]) := by
        unfold splitStep
        rw [if_pos hcond]
      rw [hstep]
      have hceq : (c == REDACTED_CHAR) = runClass cur := by
        rw [(beq_iff_eq).mp hcond, hprev]
      have hrc : runClass (cur ++ [c]) = runClass cur := by
        rw [runClass_append_singleton, hceq]
        cases hb : runClass cur <;> simp [hb]
      refine ⟨⟨hparts, uniformRun_append_singleton cur c hu hceq, ?_, ?_⟩, ?_⟩
      · intro hne'
        exact absurd hne' (by simp)
      · exact chain_last_congr acc cur (cur ++ [c]) hrc.symm hchain
      · simp
    · have hemp' : cur.isEmpty = false := by
        cases hc : cur.isEmpty
        · rfl
        · exact absurd (List.isEmpty_iff.mp hc) hcur
      have hstep : splitStep (acc, cur) c = (acc ++ [cur], [c]) := by
        unfold splitStep
        rw [if_neg hcond, if_neg (by simp [hemp'])]
      rw [hstep]
      have hneq : runClass cur ≠ runClass [c] := by
        have hclc : runClass [c] = (c == REDACTED_CHAR) := by simp [runClass]
        rw [hclc, ← hprev]
        intro he
        exact hcond (beq_iff_eq.mpr he.symm)
      refine ⟨⟨?_, ?_, ?_, chain_extend acc cur [c] hneq hchain⟩, ?_⟩
      · intro p hp
        rcases List.mem_append.mp hp with hp | hp
        · exact hparts p hp
        · simp only [List.mem_singleton] at hp
          rw [hp]
          exact ⟨hcur, hu⟩
      · unfold uniformRun
        cases hc : (c == REDACTED_CHAR) <;> simp [hc]
      · intro h'
        exact absurd h' (by simp)
      · simp

theorem splitFold_inv (text : List Char) :
    ∀ acc cur, splitInv acc cur →
      splitInv (List.foldl splitStep (acc, cur) text).1 (List.foldl splitStep (acc, cur) text).2 ∧
      (List.foldl splitStep (acc, cur) text).1.flatten ++ (List.foldl splitStep (acc, cur) text).2
        = acc.flatten ++ cur ++ text := by
  induction text with
  | nil =>
    intro acc cur h
    exact ⟨h, by simp⟩
  | cons c cs ih =>
    intro acc cur h
    obtain ⟨hstep, hjoin⟩ := splitStep_inv acc cur c h
    obtain ⟨hres, hresj⟩ :=
      ih (splitStep (acc, cur) c).1 (splitStep (acc, cur) c).2 hstep
    constructor
    · simpa [List.foldl_cons] using hres
    · rw [List.foldl_cons]
      calc (List.foldl splitStep (splitStep (acc, cur) c) cs).1.flatten
            ++ (List.foldl splitStep (splitStep (acc, cur) c) cs).2
          = (splitStep (acc, cur) c).1.flatten ++ (splitStep (acc, cur) c).2 ++ cs := by
            simpa using hresj
        _ = acc.flatten ++ cur ++ [c] ++ cs := by rw [hjoin]
        _ = acc.flatten ++ cur ++ (c :: cs) := by simp

theorem splitInv_init : splitInv [] [] := by
  refine ⟨by simp, by simp [uniformRun], fun _ => rfl, ?_⟩
  show List.Chain' (fun p q => runClass p ≠ runClass q) ([] ++ [[]])
  simp

/-! ## Lemmas: transcripts -/

theorem setRedactedFrom_get? (b : Nat) (red : List Rg) :
    ∀ (l : List Nat) (i k : Nat),
      (setRedactedFrom b red i l).get? k
        = (l.get? k).map (fun x => if inRanges red (i + k) then b else x) := by
  intro l
  induction l with
  | nil => intro i k; simp [setRedactedFrom]
  | cons x xs ih =>
    intro i k
    cases k with
    | zero => simp [setRedactedFrom]
    | succ m =>
      simp only [setRedactedFrom, List.get?_cons_succ]
      rw [ih (i + 1) m]
      have harith : i + 1 + m = i + (m + 1) := by omega
      rw [harith]

theorem set_redacted_data_eq (t1 t2 : Transcript)
    (hlen : t1.data.length = t2.data.length)
    (hdiff : ∀ i, i < t1.data.length →
      (t1.data.get? i = t2.data.get? i ∧ inRanges t1.redacted i = inRanges t2.redacted i) ∨
      (t1.data.get? i = some 0 ∧ inRanges t1.redacted i = false ∧
        inRanges t2.redacted i = true) ∨
      (t2.data.get? i = some 0 ∧ inRanges t2.redacted i = false ∧
        inRanges t1.redacted i = true)) :
    (set_redacted 0 t1).data = (set_redacted 0 t2).data := by
  apply List.ext_get?_iff.mpr
  intro k
  simp only [set_redacted]
  rw [setRedactedFrom_get?, setRedactedFrom_get?]
  simp only [Nat.zero_add]
  by_cases hk : k < t1.data.length
  · rcases hdiff k hk with ⟨hd, hr⟩ | ⟨hd, hr1, hr2⟩ | ⟨hd, hr1, hr2⟩
    · rw [hd, hr]
    · have hk2 : k < t2.data.length := hlen ▸ hk
      rw [hd, hr1, hr2, List.get?_eq_get hk2]
      simp
    · have hk2 : k < t2.data.length := hlen ▸ hk
      rw [hd, hr1, hr2, List.get?_eq_get hk]
      simp
  · have h1 : t1.data.get? k = none := List.get?_eq_none.mpr (by omega)
    have h2 : t2.data.get? k = none := List.get?_eq_none.mpr (by omega)
    rw [h1, h2]
    rfl

/-! ## The claims -/

/-- C1: for every buffer and every sorted, disjoint, in-bounds range set
the segmenter is claimed to tile `[0, len)`.  The tiling does hold for
the segment list `all_ranges` the source builds (second conjunct:
first extent starts at 0, extents are contiguous, the last ends at
`len`, each is ascending, and the lengths sum to `len`), but the claim
fails as stated on the empty-range fast path: on a non-UTF-8 buffer with
no ranges the source panics in `String::from_utf8(...).unwrap()`
(first conjunct: the model returns `none`, producing no segments at
all), although the general path converts lossily. -/
theorem c1_segmenter_tiling_code_bug :
    redactions_in_red [0xFF] [] 'X' = none ∧
    (∀ len ranges, rangesValid ranges len = true →
      (all_ranges len ranges).head?.map (fun t => t.1) = some 0 ∧
      List.Chain' (fun a b : Nat × Nat × Bool => a.2.1 = b.1) (all_ranges len ranges) ∧
      (all_ranges len ranges).getLast?.map (fun t => t.2.1) = some len ∧
      (∀ t ∈ all_ranges len ranges, t.1 ≤ t.2.1) ∧
      ((all_ranges len ranges).map (fun t => t.2.1 - t.1)).sum = len) := by
  constructor
  · rfl
  · intro len ranges hv
    rw [all_ranges_eq]
    exact ⟨segsRec_head 0 len ranges, segsRec_chain len ranges 0,
      segsRec_last len ranges 0,
      segsRec_mono len ranges 0 hv (Nat.zero_le len),
      by simpa using segsRec_sum len ranges 0 hv (Nat.zero_le len)⟩

/-- Witness for C1 at a concrete valid range set. -/
theorem c1_segmenter_tiling_code_bug_witness :
    rangesValid [⟨1, 2⟩] 3 = true ∧
    ((all_ranges 3 [⟨1, 2⟩]).map (fun t => t.2.1 - t.1)).sum = 3 :=
  ⟨by decide, (c1_segmenter_tiling_code_bug.2 3 [⟨1, 2⟩] (by decide)).2.2.2.2⟩

/-- C2: when session verification fails, the pipeline returns the
invalid-proof alert carrying the session error, and its output does not
depend on the substring verifier at all — no transcript content is
rendered even when substrings would verify. -/
theorem c2_session_failure_terminal (S SS : Type) (tp : TlsProofObj S SS)
    (verify : S → Except (List Nat) Unit)
    (sub1 sub2 : SS → Except (List Nat) (Transcript × Transcript))
    (nm : S → List Nat) (tm : S → Nat) (e : List Nat)
    (h : verify tp.session = Except.error e) :
    parse_tls_proof (Except.ok tp) verify sub1 nm tm = PView.invalidProof e ∧
    parse_tls_proof (Except.ok tp) verify sub1 nm tm
      = parse_tls_proof (Except.ok tp) verify sub2 nm tm := by
  constructor <;> simp [parse_tls_proof, h]

/-- Witness for C2 with a failing session verifier and two substring
oracles, one succeeding and one failing. -/
theorem c2_session_failure_terminal_witness :
    parse_tls_proof (Except.ok (⟨(), ()⟩ : TlsProofObj Unit Unit))
        (fun _ => Except.error [1]) (fun _ => Except.ok (⟨[], []⟩, ⟨[], []⟩))
        (fun _ => []) (fun _ => 0)
      = PView.invalidProof [1] ∧
    parse_tls_proof (Except.ok (⟨(), ()⟩ : TlsProofObj Unit Unit))
        (fun _ => Except.error [1]) (fun _ => Except.ok (⟨[], []⟩, ⟨[], []⟩))
        (fun _ => []) (fun _ => 0)
      = parse_tls_proof (Except.ok (⟨(), ()⟩ : TlsProofObj Unit Unit))
          (fun _ => Except.error [1]) (fun _ => Except.error [2])
          (fun _ => []) (fun _ => 0) :=
  c2_session_failure_terminal Unit Unit ⟨(), ()⟩ (fun _ => Except.error [1])
    (fun _ => Except.ok (⟨[], []⟩, ⟨[], []⟩)) (fun _ => Except.error [2])
    (fun _ => []) (fun _ => 0) [1] rfl

/-- C3: for a valid range set the segmenter emits exactly one redacted
segment per range, in the original order, whose marker text has length
exactly `end - start`, computed from the bounds alone (the formula does
not mention the buffer); and for a nonempty range set it always
produces output. -/
theorem c3_redacted_segments_correspond (bytes : List Nat) (ranges : List Rg) (c : Char)
    (hv : rangesValid ranges bytes.length = true) :
    (∀ ns, redactions_in_red bytes ranges c = some ns →
      redactedOf ns = ranges.map (fun r => List.replicate (r.stop - r.start) c)) ∧
    (ranges ≠ [] → (redactions_in_red bytes ranges c).isSome = true) := by
  rcases hr : ranges with _ | ⟨r0, rs⟩
  · constructor
    · intro ns hns
      simp only [redactions_in_red, List.isEmpty_nil, if_pos] at hns
      rcases huv : utf8Valid bytes with _ | _ <;> rw [huv] at hns
      · exact absurd hns (by simp)
      · have : ns = [Node.text bytes] := by
          simpa using hns.symm
        rw [this]
        simp [redactedOf]
    · intro hne
      exact absurd rfl hne
  · rw [← hr]
    have hne : ranges.isEmpty = false := by rw [hr]; rfl
    have hmain := renderSegs_segsRec bytes c ranges 0 hv (Nat.zero_le _)
    obtain ⟨ns0, hns0, hred0⟩ := hmain
    constructor
    · intro ns hns
      simp only [redactions_in_red, hne] at hns
      rw [all_ranges_eq, hns0] at hns
      simp only [Bool.false_eq_true, if_false] at hns
      have : ns0 = ns := by simpa using hns
      rw [← this, hred0]
    · intro _
      simp only [redactions_in_red, hne]
      rw [all_ranges_eq, hns0]
      simp

/-- Witness for C3 at a concrete buffer and range set. -/
theorem c3_redacted_segments_correspond_witness :
    redactedOf [Node.text [104], Node.redactedSpan ['X'], Node.text [106]]
      = ([⟨1, 2⟩] : List Rg).map (fun r => List.replicate (r.stop - r.start) 'X') :=
  (c3_redacted_segments_correspond [104, 105, 106] [⟨1, 2⟩] 'X' (by decide)).1
    [Node.text [104], Node.redactedSpan ['X'], Node.text [106]] (by decide)

/-- C4 counterexample: the range set `[2, 2)` is malformed
(`start = end` violates the validity invariant, first conjunct), yet the
segmenter silently produces output (second conjunct) instead of failing
with an `InvalidRanges` error — no such error value exists anywhere in
the source. -/
theorem c4_no_invalid_ranges_error_cex :
    rangesValid [⟨2, 2⟩] 4 = false ∧
    (redactions_in_red [97, 98, 99, 100] [⟨2, 2⟩] 'X').isSome = true := by
  decide

/-- C4 amended: the segmenter performs no range validation.  A
degenerate range `[k, k)` is accepted silently and yields output with a
zero-length redacted segment between the two disclosed parts; an
out-of-bounds range does not produce a typed error either — it panics
during slicing (modelled by `none`). -/
theorem c4_no_validation_amended :
    (∀ (bytes : List Nat) (c : Char) (k : Nat), k ≤ bytes.length →
      redactions_in_red bytes [⟨k, k⟩] c
        = some [Node.text (utf8Lossy (bytes.take k)), Node.redactedSpan [],
                Node.text (utf8Lossy (bytes.drop k))]) ∧
    redactions_in_red [97] [⟨1, 5⟩] 'X' = none := by
  constructor
  · intro bytes c k hk
    have h1 : all_ranges bytes.length [⟨k, k⟩]
        = [(0, k, false), (k, k, true), (k, bytes.length, false)] := by
      rw [all_ranges_eq]
      rfl
    have hs1 : segNode bytes c (0, k, false) = some (Node.text (utf8Lossy (bytes.take k))) := by
      simp [segNode, sliceOpt_pos bytes 0 k (Nat.zero_le k) hk]
    have hs2 : segNode bytes c (k, k, true) = some (Node.redactedSpan []) := by
      simp [segNode, get_redacted_string_eq]
    have hs3 : segNode bytes c (k, bytes.length, false)
        = some (Node.text (utf8Lossy (bytes.drop k))) := by
      have := sliceOpt_pos bytes k bytes.length hk (Nat.le_refl bytes.length)
      rw [List.take_of_length_le (by simp)] at this
      simp [segNode, this]
    have hr : redactions_in_red bytes [⟨k, k⟩] c
        = renderSegs bytes c (all_ranges bytes.length [⟨k, k⟩]) := rfl
    rw [hr, h1]
    simp only [renderSegs, hs1, hs2, hs3]
  · rfl

/-- Witness for C4 at a concrete buffer and degenerate range. -/
theorem c4_no_validation_amended_witness :
    redactions_in_red [97, 98, 99] [⟨1, 1⟩] 'X'
      = some [Node.text (utf8Lossy [97]), Node.redactedSpan [],
              Node.text (utf8Lossy [98, 99])] := by
  have h := c4_no_validation_amended.1 [97, 98, 99] 'X' 1 (by decide)
  simpa using h

/-- C5 counterexample: on HTTP-parse failure the classifier returns the
parser's error text, not the original buffer unchanged: with a parser
failing with message `malformed` on input `abc`, the result carries
`malformed` (first conjunct), which differs from the input buffer
(second conjunct). -/
theorem c5_parse_failure_body_cex :
    get_content_type (fun _ => Except.error (asciiBytes "malformed")) (asciiBytes "abc")
      = (ContentType.other, asciiBytes "malformed") ∧
    asciiBytes "malformed" ≠ asciiBytes "abc" := by
  constructor
  · rfl
  · decide

/-- C5 amended: the classifier is total — it always returns some
classification (first conjunct) — and on HTTP-parse failure it returns
the `Other` classification carrying the parse error's display text
rather than the original buffer (second conjunct). -/
theorem c5_total_and_error_text_amended :
    (∀ (parse : List Nat → Except (List Nat) HttpResponse) (bytes : List Nat),
      ∃ ct body, get_content_type parse bytes = (ct, body)) ∧
    (∀ (parse : List Nat → Except (List Nat) HttpResponse) (bytes e : List Nat),
      parse bytes = Except.error e →
      get_content_type parse bytes = (ContentType.other, e)) := by
  constructor
  · intro parse bytes
    exact ⟨_, _, rfl⟩
  · intro parse bytes e h
    simp [get_content_type, h]

/-- Witness for C5 applying the error case at a concrete stub parser. -/
theorem c5_total_and_error_text_amended_witness :
    get_content_type (fun _ => Except.error [1, 2]) [9]
      = (ContentType.other, [1, 2]) :=
  c5_total_and_error_text_amended.2 (fun _ => Except.error [1, 2]) [9] [1, 2] rfl

/-- C6: for every buffer that parses as an HTTP response, the source's
classification pipeline (`get_content_type` composed with `render_json`
as `ContentIFrame` consumes them) coincides with the classifier the
specification describes: case-insensitive `Content-Type` name match,
`text/html` wins over `application/json`, JSON bodies are pretty-printed
when they parse and returned unchanged otherwise, and anything else is
the raw classification of the body. -/
theorem c6_classifier_matches_claim (J : Type)
    (parse : List Nat → Except (List Nat) HttpResponse)
    (jsonParse : List Nat → Option J) (pretty : J → List Nat)
    (bytes : List Nat) (resp : HttpResponse)
    (hp : parse bytes = Except.ok resp) :
    codeClassified parse jsonParse pretty bytes = classify_claim resp jsonParse pretty := by
  unfold codeClassified get_content_type classify_claim render_json
  rw [hp]
  rcases hf : resp.headers.find? (fun h => asciiLower h.name == ctName) with _ | header
  · simp [hf]
  · simp only [hf]
    cases h1 : containsSub textHtmlBytes (utf8Lossy header.value)
    · cases h2 : containsSub appJsonBytes (utf8Lossy header.value)
      · simp [h1, h2]
      · simp only [h1, h2, Bool.false_eq_true, if_false, if_pos]
        rcases hj : jsonParse
            (match resp.body with
             | some b => utf8Lossy b
             | none => []) with _ | j
        · simp [hj]
        · simp [hj]
    · simp [h1]

/-- Witness for C6 at a concrete parsed response with an HTML
content type. -/
theorem c6_classifier_matches_claim_witness :
    codeClassified (fun _ => Except.ok
        (⟨[⟨asciiBytes "Content-Type", asciiBytes "text/html"⟩], some [104]⟩ : HttpResponse))
        (fun _ => (none : Option Unit)) (fun _ => []) [9]
      = classify_claim
          (⟨[⟨asciiBytes "Content-Type", asciiBytes "text/html"⟩], some [104]⟩ : HttpResponse)
          (fun _ => (none : Option Unit)) (fun _ => []) :=
  c6_classifier_matches_claim Unit
    (fun _ => Except.ok ⟨[⟨asciiBytes "Content-Type", asciiBytes "text/html"⟩], some [104]⟩)
    (fun _ => none) (fun _ => []) [9]
    ⟨[⟨asciiBytes "Content-Type", asciiBytes "text/html"⟩], some [104]⟩ rfl

/-- C7 counterexample: segmenting the empty buffer with the empty range
set yields one `Disclosed` segment holding the empty string — a
one-element segment sequence (second conjunct), not the empty sequence
the claim requires for an empty buffer. -/
theorem c7_empty_buffer_single_segment_cex :
    redactions_in_red [] [] 'X' = some [Node.text []] ∧
    (redactions_in_red [] [] 'X').map List.length = some 1 := by
  constructor <;> rfl

/-- C7 amended: for every buffer that is valid UTF-8, segmenting with
the empty range set yields exactly one `Disclosed` segment whose content
equals the buffer — including the empty buffer, for which the output is
still that single (empty) segment; for non-UTF-8 buffers the source
panics instead of producing segments. -/
theorem c7_empty_ranges_amended (bytes : List Nat) (c : Char)
    (h : utf8Valid bytes = true) :
    redactions_in_red bytes [] c = some [Node.text bytes] := by
  simp [redactions_in_red, h]

/-- Witness for C7 at a concrete valid buffer. -/
theorem c7_empty_ranges_amended_witness :
    redactions_in_red [104, 105] [] 'X' = some [Node.text [104, 105]] :=
  c7_empty_ranges_amended [104, 105] 'X' (by decide)

/-- C8: the artifact-viewing entry point is claimed never to panic, but
`str::from_utf8(&props.data).unwrap()` runs before any parsing, so any
non-UTF-8 file panics (modelled by `none`) for every choice of the
external oracles — no typed error value is produced. -/
theorem c8_non_utf8_panics (S SS : Type)
    (parse : List Nat → Except (List Nat) (TlsProofObj S SS))
    (verify : S → Except (List Nat) Unit)
    (sub : SS → Except (List Nat) (Transcript × Transcript))
    (nm : S → List Nat) (tm : S → Nat) (file_type : List Nat) :
    view_file parse verify sub nm tm file_type [0xFF] = none := by
  have h : utf8Valid [0xFF] = false := rfl
  simp [view_file, h]

/-- Witness for C8 at concrete oracles. -/
theorem c8_non_utf8_panics_witness :
    view_file (fun _ => (Except.error [] : Except (List Nat) (TlsProofObj Unit Unit)))
        (fun _ => Except.error []) (fun _ => Except.error [])
        (fun _ => []) (fun _ => 0) (asciiBytes "application/json") [0xFF] = none :=
  c8_non_utf8_panics Unit Unit (fun _ => Except.error []) (fun _ => Except.error [])
    (fun _ => Except.error []) (fun _ => []) (fun _ => 0) (asciiBytes "application/json")

/-- C9: in the sentinel renderer every NUL character is replaced by the
redaction marker before run-splitting (second conjunct), so the rendered
output of the main.rs pipeline cannot distinguish a genuinely disclosed
NUL byte from a withheld byte zeroed by `set_redacted(0)`: two
transcripts that differ only in that way render identically (first
conjunct). -/
theorem c9_nul_indistinguishable :
    (∀ (decode : List Nat → Option (List Char)) (t1 t2 : Transcript),
      t1.data.length = t2.data.length →
      (∀ i, i < t1.data.length →
        (t1.data.get? i = t2.data.get? i ∧ inRanges t1.redacted i = inRanges t2.redacted i) ∨
        (t1.data.get? i = some 0 ∧ inRanges t1.redacted i = false ∧
          inRanges t2.redacted i = true) ∨
        (t2.data.get? i = some 0 ∧ inRanges t2.redacted i = false ∧
          inRanges t1.redacted i = true)) →
      mainRenderDirection decode t1 = mainRenderDirection decode t2) ∧
    (∀ (s : List Char) (i : Nat),
      (replaceNul s).get? i
        = (s.get? i).map (fun c => if c == Char.ofNat 0 then REDACTED_CHAR else c)) := by
  constructor
  · intro decode t1 t2 hlen hdiff
    unfold mainRenderDirection
    rw [set_redacted_data_eq t1 t2 hlen hdiff]
  · intro s i
    simp [replaceNul, List.get?_map]

/-- Witness for C9: a transcript with one disclosed NUL byte renders
like a transcript with that position withheld. -/
theorem c9_nul_indistinguishable_witness :
    mainRenderDirection (fun _ => some []) ⟨[0], []⟩
      = mainRenderDirection (fun _ => some []) ⟨[65], [⟨0, 1⟩]⟩ :=
  c9_nul_indistinguishable.1 (fun _ => some []) ⟨[0], []⟩ ⟨[65], [⟨0, 1⟩]⟩ rfl
    (fun i hi => by
      have hi0 : i = 0 := Nat.lt_one_iff.mp hi
      subst hi0
      right
      left
      exact ⟨rfl, rfl, rfl⟩)

/-- C10: `split_text` splits its input into nonempty parts whose
concatenation is the input, each part entirely the sentinel or free of
it, consecutive parts alternating between those two classes (so each
part is a maximal run); the empty string yields the empty list. -/
theorem c10_split_text_runs :
    (∀ text : List Char,
      (split_text text).flatten = text ∧
      (∀ p ∈ split_text text, p ≠ [] ∧ uniformRun p = true) ∧
      List.Chain' (fun p q => runClass p ≠ runClass q) (split_text text)) ∧
    split_text [] = [] := by
  constructor
  · intro text
    obtain ⟨⟨hparts, hu, hemp, hchain⟩, hjoin⟩ := splitFold_inv text [] [] splitInv_init
    simp only [List.flatten_nil, List.nil_append] at hjoin
    have hsplit : split_text text
        = (if (List.foldl splitStep ([], []) text).2.isEmpty
           then (List.foldl splitStep ([], []) text).1
           else (List.foldl splitStep ([], []) text).1
                  ++ [(List.foldl splitStep ([], []) text).2]) := rfl
    cases hc : (List.foldl splitStep ([], []) text).2.isEmpty
    · rw [hsplit, hc]
      simp only [Bool.false_eq_true, if_false]
      refine ⟨?_, ?_, hchain⟩
      · simpa using hjoin
      · intro p hp
        rcases List.mem_append.mp hp with hp | hp
        · exact hparts p hp
        · simp only [List.mem_singleton] at hp
          rw [hp]
          refine ⟨?_, hu⟩
          intro hnil
          rw [hnil] at hc
          exact absurd hc (by simp)
    · have hcur : (List.foldl splitStep ([], []) text).2 = [] := List.isEmpty_iff.mp hc
      have hacc : (List.foldl splitStep ([], []) text).1 = [] := hemp hcur
      have htext : text = [] := by
        rw [hacc, hcur] at hjoin
        simpa using hjoin.symm
      rw [hsplit, hc, if_pos rfl, hacc, htext]
      refine ⟨rfl, by simp, by simp⟩
  · rfl

/-- Witness for C10: the run containing `a` in a concrete split is
nonempty and uniform. -/
theorem c10_split_text_runs_witness :
    ['a'] ≠ [] ∧ uniformRun ['a'] = true :=
  (c10_split_text_runs.1 ['a']).2.1 ['a'] (by decide)

end ProofViz
